import Mathlib

/-!
Verification of the alignment / merge / identification-voting core of the
transcription-diarization service.

The Python sources are shallowly embedded:
* float timestamps and scores become `ℚ`;
* Python dicts for words, segments and turns become structures (optional
  dict keys become `Option` fields; keys that the code reads with a
  `.get(key, default)` and that every caller supplies are modelled as plain
  fields holding the supplied value);
* `round(x, 3)` becomes `pyRound3` (round half to even at three decimals);
* `str.strip()` becomes `pyStrip`;
* the `speaker or "SPEAKER_UNKNOWN"` idiom (Python truthiness on `None` and
  the empty string) becomes `pyOrStr`;
* `sorted(segments, key=lambda x: x["start"])` (a stable sort by start)
  becomes `List.insertionSort` by start, which is the same stable sort.
-/

/-! ## Python primitives -/

/-- Whitespace characters removed by Python `str.strip()`. -/
def pyWS (c : Char) : Bool :=
  c = ' ' || c = '\t' || c = '\n' || c = '\r' || c = Char.ofNat 11 || c = Char.ofNat 12

/-- Model of Python `str.strip()`: drop leading and trailing whitespace. -/
def pyStrip (s : String) : String :=
  String.mk (((s.toList.dropWhile pyWS).reverse.dropWhile pyWS).reverse)

/-- Round a rational to the nearest integer, ties to even (Python `round`). -/
def roundHalfEven (q : ℚ) : ℤ :=
  let fl := ⌊q⌋
  let fr : ℚ := q - fl
  if fr < 1/2 then fl
  else if 1/2 < fr then fl + 1
  else if fl % 2 = 0 then fl else fl + 1

/-- Model of Python `round(x, 3)` on exact rationals. -/
def pyRound3 (q : ℚ) : ℚ := (roundHalfEven (q * 1000) : ℚ) / 1000

/-- Model of Python `x or default` for an optional string: `None` and the
empty string are falsy. -/
def pyOrStr (o : Option String) (d : String) : String :=
  match o with
  | some s => if s = "" then d else s
  | none => d

/-! ## Data model

Dictionaries from the Python service, as structures. -/

/-- A diarization segment dict: keys `speaker`, `start`, `end`, `duration`
(field `endT` models the `end` key, which is a Lean keyword). -/
structure DiarSeg where
  speaker : String
  start : ℚ
  endT : ℚ
  duration : ℚ
deriving DecidableEq, Repr

/-- A Whisper word dict: keys `word`, `start`, `end`. -/
structure Word where
  word : String
  start : ℚ
  endT : ℚ
deriving DecidableEq, Repr

/-- A word after speaker assignment: the word dict plus a `speaker` key. -/
structure AWord where
  word : String
  start : ℚ
  endT : ℚ
  speaker : String
deriving DecidableEq, Repr

/-- A Whisper segment dict: keys `start`, `end`, `text`, and an optional
`words` key. -/
structure WSeg where
  start : ℚ
  endT : ℚ
  text : String
  words : Option (List Word)
deriving DecidableEq, Repr

/-- A Whisper API response: keys `text`, `words`, `segments`, `duration`,
`language` (the last two may be absent). -/
structure WhisperResult where
  text : String
  words : List Word
  segments : List WSeg
  duration : Option ℚ
  language : Option String
deriving DecidableEq, Repr

/-- A diarization result dict: keys `segments`, `num_speakers`,
`audio_duration` (the last two may be absent). -/
structure DiarResult where
  segments : List DiarSeg
  num_speakers : Option ℕ
  audio_duration : Option ℚ
deriving DecidableEq, Repr

/-- A speaker turn dict produced by the merger.  `duration` is `none` where
the code does not set the key; `identified_as` / `confidence` are `none`
where the code leaves the key absent or sets it to `None`. -/
structure Turn where
  speaker : String
  start : ℚ
  endT : ℚ
  text : String
  duration : Option ℚ
  identified_as : Option String
  confidence : Option ℚ
deriving DecidableEq, Repr

/-- An open turn during grouping, before `del turn["words"]`: it still
carries its member words. -/
structure TurnFull where
  speaker : String
  start : ℚ
  endT : ℚ
  text : String
  words : List AWord
deriving DecidableEq, Repr

/-- The merged result dict (`words` is only present on the no-diarization
early return). -/
structure MergeResult where
  text : String
  segments : List Turn
  words : Option (List Word)
  num_speakers : ℕ
  duration : ℚ
  language : Option String
deriving DecidableEq, Repr

/-! ## SegmentExclusivizer (`DiarizationService._make_exclusive`) -/

/-- The sort key order used by `sorted(segments, key=lambda x: x["start"])`. -/
def startLE (p q : DiarSeg) : Prop := p.start ≤ q.start

instance : DecidableRel startLE := fun p q => inferInstanceAs (Decidable (p.start ≤ q.start))

instance : IsTotal DiarSeg startLE := ⟨fun a b => le_total a.start b.start⟩

instance : IsTrans DiarSeg startLE := ⟨fun _ _ _ h1 h2 => le_trans h1 h2⟩

/-- Stable sort by start time (Python `sorted` with the start key). -/
def sortByStart (l : List DiarSeg) : List DiarSeg := List.insertionSort startLE l

/-- One iteration of the `_make_exclusive` loop.  The accumulator holds the
accepted segments in reverse order, so `exclusive[-1]` is its head. -/
def exclStep (acc : List DiarSeg) (seg : DiarSeg) : List DiarSeg :=
  match acc with
  | [] => [seg]
  | last :: prev =>
    if seg.start < last.endT then
      let newLast : DiarSeg :=
        { last with endT := seg.start, duration := pyRound3 (seg.start - last.start) }
      if newLast.duration ≤ 0 then seg :: prev else seg :: newLast :: prev
    else seg :: last :: prev

/-- The `_make_exclusive` loop over the sorted segments. -/
def makeExclusiveGo (acc : List DiarSeg) : List DiarSeg → List DiarSeg
  | [] => acc.reverse
  | seg :: rest => makeExclusiveGo (exclStep acc seg) rest

/-- Model of `DiarizationService._make_exclusive`. -/
def make_exclusive (segments : List DiarSeg) : List DiarSeg :=
  if segments.isEmpty then segments
  else makeExclusiveGo [] (sortByStart segments)

/-! ## TimeAligner (`TranscriptMerger._find_speaker_at_time`) -/

/-- Distance from a timestamp to a segment (0 if inside, else the gap to the
nearer boundary), as computed by the nearest-segment loop. -/
def distTo (t : ℚ) (s : DiarSeg) : ℚ :=
  if t < s.start then s.start - t
  else if t > s.endT then t - s.endT
  else 0

/-- One iteration of the nearest-segment loop: replace the running best
(`none` models the initial `min_distance = inf`) when strictly closer. -/
def nearStep (t : ℚ) (best : Option (ℚ × String)) (s : DiarSeg) : Option (ℚ × String) :=
  match best with
  | none => some (distTo t s, s.speaker)
  | some (bd, bs) => if distTo t s < bd then some (distTo t s, s.speaker) else some (bd, bs)

/-- The nearest-segment fold: running minimum distance together with the
current nearest speaker. -/
def nearestFold (t : ℚ) (segs : List DiarSeg) : Option (ℚ × String) :=
  segs.foldl (nearStep t) none

/-- Model of `TranscriptMerger._find_speaker_at_time`. -/
def find_speaker_at_time (timestamp : ℚ) (diar_segments : List DiarSeg) : Option String :=
  match diar_segments.find? (fun s => decide (s.start ≤ timestamp ∧ timestamp ≤ s.endT)) with
  | some s => some s.speaker
  | none =>
    match nearestFold timestamp diar_segments with
    | some (d, sp) => if d < 1/2 then some sp else none
    | none => none

/-! ## Word assignment (`TranscriptMerger._assign_words_to_speakers`) -/

/-- Model of `TranscriptMerger._assign_words_to_speakers`: tag every word
with the speaker found at its midpoint, defaulting to `SPEAKER_UNKNOWN`. -/
def assign_words_to_speakers (words : List Word) (diar_segments : List DiarSeg) : List AWord :=
  words.map (fun w =>
    { word := w.word, start := w.start, endT := w.endT
      speaker :=
        pyOrStr (find_speaker_at_time ((w.start + w.endT) / 2) diar_segments)
          ("SPEAKER_UNKNOWN") })

/-! ## TurnGrouper (`TranscriptMerger._group_words_into_turns`) -/

/-- Open a fresh turn at a word (whose stripped text is non-empty). -/
def mkTurnFull (w : AWord) : TurnFull :=
  { speaker := w.speaker, start := w.start, endT := w.endT
    text := pyStrip w.word, words := [w] }

/-- The grouping loop with an open current turn. -/
def groupFullAux (cur : TurnFull) : List AWord → List TurnFull
  | [] => [cur]
  | w :: ws =>
    if pyStrip w.word = "" then groupFullAux cur ws
    else if w.speaker = cur.speaker then
      groupFullAux
        { cur with endT := w.endT, text := cur.text ++ " " ++ pyStrip w.word
                   words := cur.words ++ [w] } ws
    else cur :: groupFullAux (mkTurnFull w) ws

/-- The grouping loop before the first turn has been opened
(`current_turn is None`). -/
def groupFullStart : List AWord → List TurnFull
  | [] => []
  | w :: ws => if pyStrip w.word = "" then groupFullStart ws else groupFullAux (mkTurnFull w) ws

/-- The clean-up pass: add the rounded duration and drop the word list. -/
def finalizeTurn (t : TurnFull) : Turn :=
  { speaker := t.speaker, start := t.start, endT := t.endT, text := t.text
    duration := some (pyRound3 (t.endT - t.start))
    identified_as := none, confidence := none }

/-- Model of `TranscriptMerger._group_words_into_turns`. -/
def group_words_into_turns (words : List AWord) : List Turn :=
  (groupFullStart words).map finalizeTurn

/-! ## MergeOrchestrator (`TranscriptMerger.merge_transcription_with_diarization`) -/

/-- Python truthiness of an optional dict (`None` and the empty dict are
falsy). -/
def truthyDict {α : Type} (m : Option (List α)) : Bool :=
  match m with
  | some l => !l.isEmpty
  | none => false

/-- Association-list lookup, modelling `dict.get(key)` (keys are unique in a
Python dict; the first binding wins). -/
def dget {β : Type} (l : List (String × β)) (k : String) : Option β :=
  (l.find? (fun p => p.1 = k)).map (fun p => p.2)

/-- Lookup in an optional mapping guarded by Python truthiness, modelling
`mapping.get(k) if mapping else None`. -/
def mgetD {β : Type} (m : Option (List (String × β))) (k : String) : Option β :=
  if truthyDict m then dget (m.getD []) k else none

/-- Word extraction: `whisper_result.get("words", [])`, falling back to the
words stored inside the Whisper segments. -/
def wordsOf (wr : WhisperResult) : List Word :=
  if wr.words.isEmpty then wr.segments.flatMap (fun s => s.words.getD []) else wr.words

/-- Model of `TranscriptMerger._merge_segment_level`. -/
def merge_segment_level (wr : WhisperResult) (dr : DiarResult)
    (speaker_mapping : Option (List (String × String)))
    (speaker_confidences : Option (List (String × ℚ))) : MergeResult :=
  let merged := wr.segments.map (fun wseg =>
    let mid := (wseg.start + wseg.endT) / 2
    let speaker := pyOrStr (find_speaker_at_time mid dr.segments) ("SPEAKER_UNKNOWN")
    { speaker := speaker, start := wseg.start, endT := wseg.endT
      duration := some (pyRound3 (wseg.endT - wseg.start))
      text := pyStrip wseg.text
      identified_as := mgetD speaker_mapping speaker
      confidence := mgetD speaker_confidences speaker })
  { text := wr.text
    segments := merged
    words := none
    num_speakers := dr.num_speakers.getD 1
    duration := wr.duration.getD (dr.audio_duration.getD 0)
    language := wr.language }

/-- Annotate the grouped turns with identities, modelling the
`if speaker_mapping:` block of the word-level path. -/
def applyMapping (speaker_mapping : Option (List (String × String)))
    (speaker_confidences : Option (List (String × ℚ))) (turns : List Turn) : List Turn :=
  if truthyDict speaker_mapping then
    turns.map (fun t =>
      { t with identified_as := dget (speaker_mapping.getD []) t.speaker
               confidence :=
                 if truthyDict speaker_confidences then dget (speaker_confidences.getD []) t.speaker
                 else t.confidence })
  else turns

/-- Model of `TranscriptMerger.merge_transcription_with_diarization`. -/
def merge_transcription_with_diarization (wr : WhisperResult) (dr : DiarResult)
    (speaker_mapping : Option (List (String × String)))
    (speaker_confidences : Option (List (String × ℚ))) : MergeResult :=
  let words := wordsOf wr
  if words.isEmpty then
    merge_segment_level wr dr speaker_mapping speaker_confidences
  else if dr.segments.isEmpty then
    { text := wr.text
      segments := [{ speaker := "SPEAKER_00"
                     identified_as := mgetD speaker_mapping ("SPEAKER_00")
                     confidence := mgetD speaker_confidences ("SPEAKER_00")
                     start := 0
                     endT := wr.duration.getD 0
                     text := wr.text
                     duration := none }]
      words := some words
      num_speakers := 1
      duration := wr.duration.getD 0
      language := none }
  else
    let turns := applyMapping speaker_mapping speaker_confidences
      (group_words_into_turns (assign_words_to_speakers words dr.segments))
    let full_text := if wr.text = "" then String.intercalate " " (words.map (fun w => w.word))
      else wr.text
    { text := full_text
      segments := turns
      words := none
      num_speakers := dr.num_speakers.getD ((turns.map (fun t => t.speaker)).dedup).length
      duration := wr.duration.getD (dr.audio_duration.getD 0)
      language := wr.language }

/-! ## VotingIdentifier (`SpeakerDBService.identify_speaker_by_voting`)

The similarity oracle (Qdrant) is external; the voting function is embedded
over the per-embedding match lists the oracle returns (one list per queried
embedding, already cut to `top_k = 3` and thresholded oracle-side).  The
pass-through payload fields `audio_source` / `created_at` of a match are
omitted: the voting logic never reads them. -/

/-- One similarity match as returned by `search_similar_speakers`. -/
structure VMatch where
  speaker_name : String
  speaker_id : String
  score : ℚ
deriving DecidableEq, Repr

/-- One entry of the `speaker_scores` / `speaker_info` pair of dicts: the
key, the first match stored for it, and its accumulated score list. -/
structure VEntry where
  sid : String
  info : VMatch
  scores : List ℚ
deriving DecidableEq, Repr

/-- Insert one match: append the score under an existing key, or append a
fresh entry at the end (Python dict insertion order). -/
def upsertMatch (table : List VEntry) (m : VMatch) : List VEntry :=
  match table with
  | [] => [{ sid := m.speaker_id, info := m, scores := [m.score] }]
  | e :: rest =>
    if e.sid = m.speaker_id then { e with scores := e.scores ++ [m.score] } :: rest
    else e :: upsertMatch rest m

/-- Fold all matches (across embeddings, in iteration order) into the table. -/
def collectMatches (t : List VEntry) : List VMatch → List VEntry
  | [] => t
  | m :: ms => collectMatches (upsertMatch t m) ms

/-- Arithmetic mean of a score list (`sum(scores) / len(scores)`). -/
def avgOf (scores : List ℚ) : ℚ := scores.sum / scores.length

/-- The best-average selection loop (`best_avg_score` starts at `0` and only
a strictly greater average replaces the running best). -/
def bestLoop : List VEntry → Option String × ℚ → Option String × ℚ
  | [], b => b
  | e :: rest, b =>
    if avgOf e.scores > b.2 then bestLoop rest (some e.sid, avgOf e.scores) else bestLoop rest b

/-- The aggregated identification decision. -/
structure VoteResult where
  speaker_name : String
  speaker_id : String
  score : ℚ
  num_matches : ℕ
deriving DecidableEq, Repr

/-- Model of `SpeakerDBService.identify_speaker_by_voting`, over the match
lists returned by the oracle for each queried embedding.  The final
`if best_speaker_id:` is Python truthiness: both `None` and the empty string
fall through to `return None`. -/
def identify_speaker_by_voting (queries : List (List VMatch)) : Option VoteResult :=
  if queries.isEmpty then none
  else
    let table := collectMatches [] (queries.flatMap (fun q => q))
    if table.isEmpty then none
    else
      match bestLoop table (none, 0) with
      | (some bid, bavg) =>
        if bid = "" then none
        else
          match table.find? (fun e => e.sid = bid) with
          | some e =>
            some { speaker_name := e.info.speaker_name, speaker_id := e.info.speaker_id
                   score := bavg, num_matches := e.scores.length }
          | none => none
      | (none, _) => none

/-! ## Declarative companions used to state the claims -/

/-- All scores returned for one identity id, in iteration order. -/
def scoresFor (queries : List (List VMatch)) (id : String) : List ℚ :=
  (queries.flatMap (fun q => q)).filterMap
    (fun m => if m.speaker_id = id then some m.score else none)

/-- First-appearance deduplication, with an accumulator of already-seen
keys. -/
def firstIdsAux (seen : List String) : List String → List String
  | [] => []
  | x :: xs => if x ∈ seen then firstIdsAux seen xs else x :: firstIdsAux (x :: seen) xs

/-- The identity ids in order of first appearance across the embedding
iteration. -/
def firstIds (l : List String) : List String := firstIdsAux [] l

/-- The score list stored in the table under one key (empty if absent). -/
def scoresInTable (t : List VEntry) (id : String) : List ℚ :=
  match t.find? (fun e => e.sid = id) with
  | some e => e.scores
  | none => []

/-! ## Lemmas: the exclusivizer invariant -/

/-- One `exclStep` preserves the reversed-accumulator invariant: reverse
chain of non-overlap, reverse-sorted starts, provenance of every element,
and the bound of all starts by the incoming segment's start. -/
lemma exclStep_inv (orig : List DiarSeg) (acc : List DiarSeg) (seg : DiarSeg)
    (hchain : List.Chain' (fun p q => q.endT ≤ p.start) acc)
    (hpw : List.Pairwise (fun p q => q.start ≤ p.start) acc)
    (hub : ∀ x ∈ acc, x.start ≤ seg.start)
    (hmem : ∀ x ∈ acc, x ∈ orig ∨ 0 < x.duration)
    (hseg : seg ∈ orig) :
    List.Chain' (fun p q => q.endT ≤ p.start) (exclStep acc seg)
    ∧ List.Pairwise (fun p q => q.start ≤ p.start) (exclStep acc seg)
    ∧ (∀ x ∈ exclStep acc seg, x ∈ orig ∨ 0 < x.duration)
    ∧ (∀ x ∈ exclStep acc seg, x.start ≤ seg.start) := by
  match acc with
  | [] =>
    refine ⟨?_, ?_, ?_, ?_⟩ <;> simp [exclStep]
    · exact Or.inl hseg
  | last :: prev =>
    have hlastub : last.start ≤ seg.start := hub last (List.mem_cons_self _ _)
    have hprevhead : ∀ y ∈ prev.head?, y.endT ≤ last.start := (List.chain'_cons'.mp hchain).1
    have hchainprev : List.Chain' (fun p q => q.endT ≤ p.start) prev :=
      (List.chain'_cons'.mp hchain).2
    have hpwprev : List.Pairwise (fun p q => q.start ≤ p.start) prev :=
      (List.pairwise_cons.mp hpw).2
    have hpwlast : ∀ x ∈ prev, x.start ≤ last.start := (List.pairwise_cons.mp hpw).1
    by_cases hov : seg.start < last.endT
    · by_cases hdrop :
        (pyRound3 (seg.start - last.start) : ℚ) ≤ 0
      · -- truncated duration ≤ 0 : the previous segment is dropped
        have hres : exclStep (last :: prev) seg = seg :: prev := by
          simp [exclStep, hov, hdrop]
        rw [hres]
        refine ⟨?_, ?_, ?_, ?_⟩
        · refine List.chain'_cons'.mpr ⟨?_, hchainprev⟩
          intro y hy
          exact le_trans (hprevhead y hy) hlastub
        · exact List.pairwise_cons.mpr
            ⟨fun x hx => le_trans (hpwlast x hx) hlastub, hpwprev⟩
        · intro x hx
          rcases List.mem_cons.mp hx with h | h
          · exact h ▸ Or.inl hseg
          · exact hmem x (List.mem_cons_of_mem _ h)
        · intro x hx
          rcases List.mem_cons.mp hx with h | h
          · exact h ▸ le_refl _
          · exact hub x (List.mem_cons_of_mem _ h)
      · -- truncate the previous segment, keep it
        have hres : exclStep (last :: prev) seg =
            seg :: { last with endT := seg.start
                               duration := pyRound3 (seg.start - last.start) } :: prev := by
          simp [exclStep, hov, hdrop]
        rw [hres]
        refine ⟨?_, ?_, ?_, ?_⟩
        · refine List.chain'_cons'.mpr ⟨?_, List.chain'_cons'.mpr ⟨hprevhead, hchainprev⟩⟩
          intro y hy
          have hy2 := Option.mem_def.mp hy
          rw [List.head?_cons] at hy2
          injection hy2 with hy3
          subst hy3
          exact le_of_eq rfl
        · refine List.pairwise_cons.mpr ⟨?_, List.pairwise_cons.mpr ⟨hpwlast, hpwprev⟩⟩
          intro x hx
          rcases List.mem_cons.mp hx with h | h
          · simp [h, hlastub]
          · exact le_trans (hpwlast x h) hlastub
        · intro x hx
          rcases List.mem_cons.mp hx with h | h
          · exact h ▸ Or.inl hseg
          rcases List.mem_cons.mp h with h2 | h2
          · exact Or.inr (h2 ▸ lt_of_not_le hdrop)
          · exact hmem x (List.mem_cons_of_mem _ h2)
        · intro x hx
          rcases List.mem_cons.mp hx with h | h
          · exact h ▸ le_refl _
          rcases List.mem_cons.mp h with h2 | h2
          · simp [h2, hlastub]
          · exact hub x (List.mem_cons_of_mem _ h2)
    · -- no overlap: accept the new segment after the previous one
      have hres : exclStep (last :: prev) seg = seg :: last :: prev := by
        simp [exclStep, hov]
      rw [hres]
      refine ⟨?_, ?_, ?_, ?_⟩
      · refine List.chain'_cons'.mpr ⟨?_, hchain⟩
        intro y hy
        have hy2 := Option.mem_def.mp hy
        rw [List.head?_cons] at hy2
        injection hy2 with hy3
        subst hy3
        exact le_of_not_lt hov
      · exact List.pairwise_cons.mpr ⟨hub, hpw⟩
      · intro x hx
        rcases List.mem_cons.mp hx with h | h
        · exact h ▸ Or.inl hseg
        · exact hmem x h
      · intro x hx
        rcases List.mem_cons.mp hx with h | h
        · exact h ▸ le_refl _
        · exact hub x h

/-- The whole `_make_exclusive` loop keeps the invariant; stated on the
reversed final accumulator. -/
lemma makeExclusiveGo_inv (orig : List DiarSeg) :
    ∀ (rest acc : List DiarSeg),
    List.Pairwise startLE rest →
    (∀ r ∈ rest, r ∈ orig) →
    List.Chain' (fun p q => q.endT ≤ p.start) acc →
    List.Pairwise (fun p q => q.start ≤ p.start) acc →
    (∀ x ∈ acc, x ∈ orig ∨ 0 < x.duration) →
    (∀ x ∈ acc, ∀ r ∈ rest, x.start ≤ r.start) →
    List.Chain' (fun p q => p.endT ≤ q.start) (makeExclusiveGo acc rest)
    ∧ List.Pairwise startLE (makeExclusiveGo acc rest)
    ∧ (∀ x ∈ makeExclusiveGo acc rest, x ∈ orig ∨ 0 < x.duration) := by
  intro rest
  induction rest with
  | nil =>
    intro acc _ _ hchain hpw hmem _
    refine ⟨?_, ?_, ?_⟩
    · rw [makeExclusiveGo]
      exact List.chain'_reverse.mpr hchain
    · rw [makeExclusiveGo]
      exact List.pairwise_reverse.mpr hpw
    · intro x hx
      rw [makeExclusiveGo] at hx
      exact hmem x (List.mem_reverse.mp hx)
  | cons seg rest ih =>
    intro acc hsorted horig hchain hpw hmem hub
    have hsortedcons := List.pairwise_cons.mp hsorted
    have hstep := exclStep_inv orig acc seg hchain hpw
      (fun x hx => hub x hx seg (List.mem_cons_self _ _)) hmem
      (horig seg (List.mem_cons_self _ _))
    have hgo : makeExclusiveGo acc (seg :: rest) = makeExclusiveGo (exclStep acc seg) rest := rfl
    rw [hgo]
    exact ih (exclStep acc seg) hsortedcons.2
      (fun r hr => horig r (List.mem_cons_of_mem _ hr))
      hstep.1 hstep.2.1 hstep.2.2.1
      (fun x hx r hr => le_trans (hstep.2.2.2 x hx) (hsortedcons.1 r hr))

/-- From the consecutive non-overlap chain and sortedness of starts, the
non-overlap relation holds for all (not just adjacent) pairs. -/
lemma chain_pairwise_nonoverlap :
    ∀ l : List DiarSeg, List.Chain' (fun p q => p.endT ≤ q.start) l →
    List.Pairwise startLE l → List.Pairwise (fun p q => p.endT ≤ q.start) l := by
  intro l
  induction l with
  | nil => intro _ _; exact List.Pairwise.nil
  | cons a l ih =>
    intro hchain hpw
    have hc := List.chain'_cons'.mp hchain
    have hp := List.pairwise_cons.mp hpw
    refine List.pairwise_cons.mpr ⟨?_, ih hc.2 hp.2⟩
    intro x hx
    cases l with
    | nil => cases hx
    | cons b l2 =>
      have hab : a.endT ≤ b.start := hc.1 b rfl
      rcases List.mem_cons.mp hx with h | h
      · exact h ▸ hab
      · have hbx : b.start ≤ x.start := (List.pairwise_cons.mp hp.2).1 x h
        exact le_trans hab hbx

/-- The three structural facts about `make_exclusive` output (shared by the
claims about the exclusivizer). -/
lemma make_exclusive_props (segs : List DiarSeg) :
    List.Pairwise startLE (make_exclusive segs)
    ∧ List.Chain' (fun p q => p.endT ≤ q.start) (make_exclusive segs)
    ∧ (∀ s ∈ make_exclusive segs, s ∈ segs ∨ 0 < s.duration) := by
  by_cases h : segs.isEmpty
  · have hnil : segs = [] := List.isEmpty_iff.mp h
    subst hnil
    simp [make_exclusive]
  · have hout : make_exclusive segs = makeExclusiveGo [] (sortByStart segs) := by
      simp [make_exclusive, h]
    have hsorted : List.Pairwise startLE (sortByStart segs) :=
      List.sorted_insertionSort startLE segs
    have hmem : ∀ r ∈ sortByStart segs, r ∈ segs := by
      intro r hr
      exact (List.mem_insertionSort startLE).mp hr
    have hinv := makeExclusiveGo_inv segs (sortByStart segs) [] hsorted hmem
      List.chain'_nil List.Pairwise.nil (by intro x hx; cases hx) (by intro x hx; cases hx)
    rw [hout]
    exact ⟨hinv.2.1, hinv.1, hinv.2.2⟩

/-- An already-exclusive list passes through the loop unchanged. -/
lemma makeExclusiveGo_id :
    ∀ (l acc : List DiarSeg),
    List.Chain' (fun p q => p.endT ≤ q.start) (acc.reverse ++ l) →
    makeExclusiveGo acc l = acc.reverse ++ l := by
  intro l
  induction l with
  | nil =>
    intro acc _
    simp [makeExclusiveGo]
  | cons x xs ih =>
    intro acc hchain
    have hgo : makeExclusiveGo acc (x :: xs) = makeExclusiveGo (exclStep acc x) xs := rfl
    match acc with
    | [] =>
      have hstep : exclStep [] x = [x] := rfl
      rw [hgo, hstep]
      have := ih [x] (by simpa using hchain)
      simpa using this
    | last :: prev =>
      have hjun : last.endT ≤ x.start := by
        have hsplit := List.chain'_append.mp hchain
        refine hsplit.2.2 last ?_ x rfl
        rw [List.reverse_cons, List.getLast?_concat]
        rfl
      have hstep : exclStep (last :: prev) x = x :: last :: prev := by
        simp [exclStep, not_lt.mpr hjun]
      rw [hgo, hstep]
      have harr : (x :: last :: prev).reverse ++ xs = (last :: prev).reverse ++ x :: xs := by
        simp
      rw [ih (x :: last :: prev) (by rw [harr]; exact hchain)]
      exact harr

/-! ## Claim C3 -/

/-- C3: for every input list of diarization segments, the output of the
exclusivizer is sorted ascending by start time and pairwise non-overlapping
(every earlier segment ends no later than every later one starts), and every
output segment is either an untouched input segment or a truncated segment
whose (rounded) duration is strictly positive — i.e. any segment whose
truncated duration became ≤ 0 was dropped. -/
theorem c3_exclusivize_sorted_nonoverlapping (segs : List DiarSeg) :
    List.Pairwise startLE (make_exclusive segs)
    ∧ List.Pairwise (fun p q => p.endT ≤ q.start) (make_exclusive segs)
    ∧ (∀ s ∈ make_exclusive segs, s ∈ segs ∨ 0 < s.duration) := by
  have h := make_exclusive_props segs
  exact ⟨h.1, chain_pairwise_nonoverlap _ h.2.1 h.1, h.2.2⟩

/-- Witness: the spec's own example `[{A,0,5},{B,3,8}]`, whose exclusivized
form contains the truncated `{A,0,3}` — not an input segment, so its rounded
duration is strictly positive. -/
theorem c3_exclusivize_sorted_nonoverlapping_witness :
    List.Pairwise (fun p q => p.endT ≤ q.start)
      (make_exclusive [⟨"A", 0, 5, 5⟩, ⟨"B", 3, 8, 5⟩])
    ∧ ((⟨"A", 0, 3, 3⟩ : DiarSeg) ∈ ([⟨"A", 0, 5, 5⟩, ⟨"B", 3, 8, 5⟩] : List DiarSeg)
        ∨ 0 < (⟨"A", 0, 3, 3⟩ : DiarSeg).duration) :=
  ⟨(c3_exclusivize_sorted_nonoverlapping [⟨"A", 0, 5, 5⟩, ⟨"B", 3, 8, 5⟩]).2.1,
   (c3_exclusivize_sorted_nonoverlapping [⟨"A", 0, 5, 5⟩, ⟨"B", 3, 8, 5⟩]).2.2
     ⟨"A", 0, 3, 3⟩
     (by norm_num [make_exclusive, sortByStart, startLE, makeExclusiveGo, exclStep,
        pyRound3, roundHalfEven])⟩

/-! ## Claim C4 -/

/-- C4: the exclusivizer is idempotent — applying it to its own output
changes nothing. -/
theorem c4_exclusivize_idempotent (segs : List DiarSeg) :
    make_exclusive (make_exclusive segs) = make_exclusive segs := by
  have hprops := make_exclusive_props segs
  rcases hE : make_exclusive segs with _ | ⟨a, l⟩
  · rfl
  · rw [hE] at hprops
    have hne : ¬((a :: l : List DiarSeg).isEmpty = true) := by simp
    show make_exclusive (a :: l) = a :: l
    rw [make_exclusive, if_neg hne]
    have hsort : sortByStart (a :: l) = a :: l :=
      List.Sorted.insertionSort_eq hprops.1
    rw [sortByStart] at hsort
    rw [sortByStart, hsort]
    have hgo := makeExclusiveGo_id (a :: l) [] (by simpa using hprops.2.1)
    simpa using hgo

/-! ## Lemmas: the nearest-segment search -/

/-- The nearest fold started at a concrete best returns a minimum over the
initial best and all remaining segments, attained either at the initial best
or at one of the segments. -/
lemma nearStep_fold_spec (t : ℚ) :
    ∀ (segs : List DiarSeg) (bd : ℚ) (bs : String),
    ∃ d sp, segs.foldl (nearStep t) (some (bd, bs)) = some (d, sp)
      ∧ d ≤ bd
      ∧ (∀ s ∈ segs, d ≤ distTo t s)
      ∧ ((d = bd ∧ sp = bs) ∨ ∃ s ∈ segs, d = distTo t s ∧ sp = s.speaker) := by
  intro segs
  induction segs with
  | nil =>
    intro bd bs
    refine ⟨bd, bs, rfl, le_refl _, ?_, Or.inl ⟨rfl, rfl⟩⟩
    intro s hs
    cases hs
  | cons s ss ih =>
    intro bd bs
    by_cases h : distTo t s < bd
    · have hstep : (s :: ss).foldl (nearStep t) (some (bd, bs))
          = ss.foldl (nearStep t) (some (distTo t s, s.speaker)) := by
        simp [List.foldl_cons, nearStep, h]
      obtain ⟨d, sp, heq, hle, hall, hor⟩ := ih (distTo t s) s.speaker
      refine ⟨d, sp, hstep ▸ heq, le_trans hle (le_of_lt h), ?_, ?_⟩
      · intro x hx
        rcases List.mem_cons.mp hx with hx | hx
        · exact hx ▸ hle
        · exact hall x hx
      · rcases hor with ⟨hd, hsp⟩ | ⟨s2, hm, hd, hsp⟩
        · exact Or.inr ⟨s, List.mem_cons_self _ _, hd, hsp⟩
        · exact Or.inr ⟨s2, List.mem_cons_of_mem _ hm, hd, hsp⟩
    · have hstep : (s :: ss).foldl (nearStep t) (some (bd, bs))
          = ss.foldl (nearStep t) (some (bd, bs)) := by
        simp [List.foldl_cons, nearStep, h]
      obtain ⟨d, sp, heq, hle, hall, hor⟩ := ih bd bs
      refine ⟨d, sp, hstep ▸ heq, hle, ?_, ?_⟩
      · intro x hx
        rcases List.mem_cons.mp hx with hx | hx
        · exact hx ▸ le_trans hle (le_of_not_lt h)
        · exact hall x hx
      · rcases hor with ⟨hd, hsp⟩ | ⟨s2, hm, hd, hsp⟩
        · exact Or.inl ⟨hd, hsp⟩
        · exact Or.inr ⟨s2, List.mem_cons_of_mem _ hm, hd, hsp⟩

/-- On a non-empty list the nearest fold returns the distance and speaker of
a segment at minimum distance. -/
lemma nearestFold_spec (t : ℚ) (segs : List DiarSeg) (hne : segs ≠ []) :
    ∃ s ∈ segs, nearestFold t segs = some (distTo t s, s.speaker)
      ∧ ∀ x ∈ segs, distTo t s ≤ distTo t x := by
  match segs with
  | [] => exact absurd rfl hne
  | s :: ss =>
    have hhead : nearestFold t (s :: ss) = ss.foldl (nearStep t) (some (distTo t s, s.speaker)) :=
      rfl
    obtain ⟨d, sp, heq, hle, hall, hor⟩ := nearStep_fold_spec t ss (distTo t s) s.speaker
    rcases hor with ⟨hd, hsp⟩ | ⟨s2, hm, hd, hsp⟩
    · refine ⟨s, List.mem_cons_self _ _, ?_, ?_⟩
      · rw [hhead, heq, hd, hsp]
      · intro x hx
        rcases List.mem_cons.mp hx with hx | hx
        · exact hx ▸ le_refl _
        · exact hd ▸ hall x hx
    · refine ⟨s2, List.mem_cons_of_mem _ hm, ?_, ?_⟩
      · rw [hhead, heq, hd, hsp]
      · intro x hx
        rcases List.mem_cons.mp hx with hx | hx
        · exact hx ▸ (hd ▸ hle)
        · exact hd ▸ hall x hx

/-! ## Claim C5 -/

/-- C5 (amended): on a pairwise non-overlapping timeline, a timestamp
strictly inside a segment yields that segment's label; and for a timestamp
inside no segment (inclusive bounds), the function returns the label of a
segment at minimum distance when that distance is under the 0.5 s tolerance
and `none` (the unassigned sentinel) otherwise. -/
theorem c5_find_speaker_inside_and_nearest (t : ℚ) (timeline : List DiarSeg) :
    (List.Pairwise (fun p q => p.endT ≤ q.start ∨ q.endT ≤ p.start) timeline →
      ∀ s ∈ timeline, s.start < t → t < s.endT →
        find_speaker_at_time t timeline = some s.speaker)
    ∧ ((∀ x ∈ timeline, ¬(x.start ≤ t ∧ t ≤ x.endT)) → timeline ≠ [] →
        ∃ s ∈ timeline, (∀ x ∈ timeline, distTo t s ≤ distTo t x)
          ∧ find_speaker_at_time t timeline
              = if distTo t s < 1/2 then some s.speaker else none) := by
  constructor
  · intro hpw s hs h1 h2
    obtain ⟨u, v, huv⟩ := List.append_of_mem hs
    subst huv
    have hsplit := List.pairwise_append.mp hpw
    have hu : u.find? (fun x => decide (x.start ≤ t ∧ t ≤ x.endT)) = none := by
      rw [List.find?_eq_none]
      intro x hx
      simp only [decide_eq_true_eq]
      rintro ⟨hxa, hxb⟩
      rcases hsplit.2.2 x hx s (List.mem_cons_self _ _) with h | h
      · exact absurd (le_trans hxb h) (not_le.mpr h1)
      · exact absurd (le_trans h hxa) (not_le.mpr h2)
    have hstrue : (fun x => decide (x.start ≤ t ∧ t ≤ x.endT)) s = true := by
      simp only [decide_eq_true_eq]
      exact ⟨le_of_lt h1, le_of_lt h2⟩
    have hff : (u ++ s :: v).find? (fun x => decide (x.start ≤ t ∧ t ≤ x.endT)) = some s := by
      rw [List.find?_append, hu, Option.none_or]
      exact List.find?_cons_of_pos _ hstrue
    rw [find_speaker_at_time, hff]
  · intro hno hne
    have hfind : timeline.find? (fun x => decide (x.start ≤ t ∧ t ≤ x.endT)) = none := by
      rw [List.find?_eq_none]
      intro x hx
      simp only [decide_eq_true_eq]
      exact hno x hx
    obtain ⟨s, hs, hfold, hmin⟩ := nearestFold_spec t timeline hne
    refine ⟨s, hs, hmin, ?_⟩
    rw [find_speaker_at_time, hfind, hfold]

/-- Witness for C5: `t = 1/2` strictly inside `[0,1]` on an exclusive
two-segment timeline yields that segment's label. -/
theorem c5_find_speaker_inside_and_nearest_witness :
    find_speaker_at_time (1/2 : ℚ) [⟨"A", 0, 1, 1⟩, ⟨"B", 2, 3, 1⟩] = some "A" :=
  (c5_find_speaker_inside_and_nearest (1/2) [⟨"A", 0, 1, 1⟩, ⟨"B", 2, 3, 1⟩]).1
    (by norm_num [List.pairwise_cons]) ⟨"A", 0, 1, 1⟩ (List.mem_cons_self _ _)
    (by norm_num) (by norm_num)

/-- Counterexample to C5 as stated: on the overlapping timeline
`[(A,0,2), (B,1,3)]` the timestamp `3/2` is strictly inside `B`'s segment,
yet the function returns `A` (the first containing segment in list order
wins), so the claim fails without a non-overlap assumption. -/
theorem c5_strictly_inside_claim_counterexample :
    ((⟨"B", 1, 3, 2⟩ : DiarSeg).start < (3/2 : ℚ)
      ∧ (3/2 : ℚ) < (⟨"B", 1, 3, 2⟩ : DiarSeg).endT)
    ∧ find_speaker_at_time (3/2 : ℚ) [⟨"A", 0, 2, 2⟩, ⟨"B", 1, 3, 2⟩] = some "A"
    ∧ ("A" : String) ≠ "B" := by
  refine ⟨⟨by norm_num, by norm_num⟩, ?_, by decide⟩
  norm_num [find_speaker_at_time, List.find?]

/-! ## Claim C10 -/

/-- C10 (amended): on a sorted exclusive timeline all of whose segments have
positive length, a boundary time shared by two adjacent segments is resolved
to the earlier segment's label, because membership is tested with inclusive
bounds in list order and the first match wins. -/
theorem c10_shared_boundary_goes_to_earlier (l1 l2 : List DiarSeg) (a b : DiarSeg)
    (hpw : List.Pairwise (fun p q => p.endT ≤ q.start) (l1 ++ a :: b :: l2))
    (hwf : ∀ s ∈ l1 ++ a :: b :: l2, s.start < s.endT)
    (_hb : a.endT = b.start) :
    find_speaker_at_time a.endT (l1 ++ a :: b :: l2) = some a.speaker := by
  have hsplit := List.pairwise_append.mp hpw
  have hu : l1.find? (fun x => decide (x.start ≤ a.endT ∧ a.endT ≤ x.endT)) = none := by
    rw [List.find?_eq_none]
    intro x hx
    simp only [decide_eq_true_eq]
    rintro ⟨_, hxb⟩
    have hxa : x.endT ≤ a.start := hsplit.2.2 x hx a (List.mem_cons_self _ _)
    have haa : a.start < a.endT := hwf a (by simp)
    exact absurd (le_trans hxb hxa) (not_le.mpr haa)
  have hstrue : (fun x => decide (x.start ≤ a.endT ∧ a.endT ≤ x.endT)) a = true := by
    simp only [decide_eq_true_eq]
    exact ⟨le_of_lt (hwf a (by simp)), le_refl _⟩
  have hff : (l1 ++ a :: b :: l2).find?
      (fun x => decide (x.start ≤ a.endT ∧ a.endT ≤ x.endT)) = some a := by
    rw [List.find?_append, hu, Option.none_or]
    exact List.find?_cons_of_pos _ hstrue
  rw [find_speaker_at_time, hff]

/-- Witness for C10: boundary `1` between `[0,1]` and `[1,2]` resolves to
the earlier segment `A`. -/
theorem c10_shared_boundary_goes_to_earlier_witness :
    find_speaker_at_time (⟨"A", 0, 1, 1⟩ : DiarSeg).endT
      ([] ++ (⟨"A", 0, 1, 1⟩ : DiarSeg) :: (⟨"B", 1, 2, 1⟩ : DiarSeg) :: []) = some "A" :=
  c10_shared_boundary_goes_to_earlier [] [] ⟨"A", 0, 1, 1⟩ ⟨"B", 1, 2, 1⟩
    (by norm_num [List.pairwise_cons]) (by
      intro s hs
      rcases List.mem_cons.mp hs with h | h
      · subst h; norm_num
      · rcases List.mem_cons.mp h with h2 | h2
        · subst h2; norm_num
        · cases h2)
    (by norm_num)

/-- Counterexample to C10 as stated: the sorted, pairwise non-overlapping
timeline `[(A,0,1), (C,1,1), (D,1,2)]` contains the adjacent pair `C, D`
sharing boundary `1` (`C` ends at `1`, `D` starts at `1`), yet the lookup at
`1` returns `A`, not the earlier segment `C` of that pair — the claim fails
when a zero-length segment is allowed. -/
theorem c10_claim_counterexample :
    List.Pairwise startLE ([⟨"A", 0, 1, 1⟩, ⟨"C", 1, 1, 0⟩, ⟨"D", 1, 2, 1⟩] : List DiarSeg)
    ∧ List.Pairwise (fun p q => p.endT ≤ q.start)
        ([⟨"A", 0, 1, 1⟩, ⟨"C", 1, 1, 0⟩, ⟨"D", 1, 2, 1⟩] : List DiarSeg)
    ∧ (⟨"C", 1, 1, 0⟩ : DiarSeg).endT = (⟨"D", 1, 2, 1⟩ : DiarSeg).start
    ∧ find_speaker_at_time (⟨"C", 1, 1, 0⟩ : DiarSeg).endT
        [⟨"A", 0, 1, 1⟩, ⟨"C", 1, 1, 0⟩, ⟨"D", 1, 2, 1⟩] = some "A"
    ∧ ("A" : String) ≠ "C" := by
  refine ⟨?_, ?_, by norm_num, ?_, by decide⟩
  · norm_num [List.pairwise_cons, startLE]
  · norm_num [List.pairwise_cons]
  · norm_num [find_speaker_at_time, List.find?]

/-! ## Lemmas: the turn grouper partitions the words -/

/-- With an open turn, the grouping loop's turns carry exactly the open
turn's words followed by the remaining words of non-empty stripped text, in
order. -/
lemma groupFullAux_words (ws : List AWord) :
    ∀ cur : TurnFull,
    (groupFullAux cur ws).flatMap (fun t => t.words)
      = cur.words ++ ws.filter (fun w => !(decide (pyStrip w.word = ""))) := by
  induction ws with
  | nil =>
    intro cur
    simp [groupFullAux]
  | cons w ws ih =>
    intro cur
    by_cases h : pyStrip w.word = ""
    · rw [groupFullAux, if_pos h, ih cur]
      simp [h]
    · by_cases hsp : w.speaker = cur.speaker
      · rw [groupFullAux, if_neg h, if_pos hsp, ih]
        simp [h]
      · rw [groupFullAux, if_neg h, if_neg hsp]
        simp only [List.flatMap_cons, ih (mkTurnFull w)]
        simp [mkTurnFull, h]

/-- The grouped turns partition exactly the input words whose stripped text
is non-empty, contiguously and in input order. -/
lemma groupFullStart_words (ws : List AWord) :
    (groupFullStart ws).flatMap (fun t => t.words)
      = ws.filter (fun w => !(decide (pyStrip w.word = ""))) := by
  induction ws with
  | nil => simp [groupFullStart]
  | cons w ws ih =>
    by_cases h : pyStrip w.word = ""
    · rw [groupFullStart, if_pos h, ih]
      simp [h]
    · rw [groupFullStart, if_neg h, groupFullAux_words]
      simp [mkTurnFull, h]

/-! ## Claim C6 -/

/-- C6: the turns produced by the grouper partition exactly the tokens with
non-empty trimmed text, contiguously and in original order, with no such
token omitted or duplicated; and on the spec's example the output is the two
turns `(A, "hi there", 0, 1)` and `(B, "bye", 1.1, 1.5)`. -/
theorem c6_turn_grouper_partition :
    (∀ ws : List AWord,
      (groupFullStart ws).flatMap (fun t => t.words)
        = ws.filter (fun w => !(decide (pyStrip w.word = ""))))
    ∧ group_words_into_turns
        [⟨"hi", 0, 1/2, "A"⟩, ⟨"there", 3/5, 1, "A"⟩, ⟨"bye", 11/10, 3/2, "B"⟩]
      = [⟨"A", 0, 1, "hi there", some 1, none, none⟩,
         ⟨"B", 11/10, 3/2, "bye", some (2/5), none, none⟩] := by
  constructor
  · exact groupFullStart_words
  · have h1 : pyStrip ("hi") = "hi" := by decide
    have h2 : pyStrip ("there") = "there" := by decide
    have h3 : pyStrip ("bye") = "bye" := by decide
    have h4 : ("hi" : String) ≠ "" := by decide
    have h5 : ("there" : String) ≠ "" := by decide
    have h6 : ("bye" : String) ≠ "" := by decide
    have h7 : ("A" : String) ≠ "B" := by decide
    have h7b : ("B" : String) ≠ "A" := by decide
    have h8 : ("hi" ++ " " ++ "there" : String) = "hi there" := by decide
    norm_num [group_words_into_turns, groupFullStart, groupFullAux, mkTurnFull, finalizeTurn,
      h1, h2, h3, h4, h5, h6, h7, h7b, h8, pyRound3, roundHalfEven]

/-! ## Claim C7 -/

/-- C7 (amended): when the transcription result reports no full text and the
word-level merge path runs, the merged full text is the space-join of the
raw word strings in input order (which coincides with the join of the turn
texts only when every word is non-empty and carries no surrounding
whitespace). -/
theorem c7_full_text_joins_raw_words (wr : WhisperResult) (dr : DiarResult)
    (m : Option (List (String × String))) (c : Option (List (String × ℚ)))
    (ht : wr.text = "") (hw : wordsOf wr ≠ []) (hd : dr.segments ≠ []) :
    (merge_transcription_with_diarization wr dr m c).text
      = String.intercalate (" ") ((wordsOf wr).map (fun w => w.word)) := by
  have hw2 : ¬((wordsOf wr).isEmpty = true) := fun h => hw (List.isEmpty_iff.mp h)
  have hd2 : ¬(dr.segments.isEmpty = true) := fun h => hd (List.isEmpty_iff.mp h)
  rw [merge_transcription_with_diarization]
  simp only [if_neg hw2, if_neg hd2]
  rw [if_pos ht]

/-- Witness for C7 at a concrete input. -/
theorem c7_full_text_joins_raw_words_witness :
    (merge_transcription_with_diarization ⟨"", [⟨"a", 0, 1⟩], [], some 1, none⟩
        ⟨[⟨"A", 0, 1, 1⟩], none, none⟩ none none).text
      = String.intercalate (" ")
          ((wordsOf ⟨"", [⟨"a", 0, 1⟩], [], some 1, none⟩).map (fun w => w.word)) :=
  c7_full_text_joins_raw_words ⟨"", [⟨"a", 0, 1⟩], [], some 1, none⟩
    ⟨[⟨"A", 0, 1, 1⟩], none, none⟩ none none rfl (by simp [wordsOf]) (by simp)

/-- Counterexample to C7 as stated: with the single word `" hi "` the merged
full text is `" hi "` (the join of the raw word strings) while the join of
the produced turns' texts is the stripped `"hi"` — the two differ. -/
theorem c7_claim_counterexample :
    (merge_transcription_with_diarization ⟨"", [⟨" hi ", 0, 1⟩], [], some 1, none⟩
        ⟨[⟨"A", 0, 1, 1⟩], none, none⟩ none none).text = " hi "
    ∧ String.intercalate (" ")
        ((merge_transcription_with_diarization ⟨"", [⟨" hi ", 0, 1⟩], [], some 1, none⟩
            ⟨[⟨"A", 0, 1, 1⟩], none, none⟩ none none).segments.map (fun t => t.text)) = "hi"
    ∧ (" hi " : String) ≠ "hi" := by
  have hs : pyStrip (" hi ") = "hi" := by decide
  have hA : ("A" : String) ≠ "" := by decide
  have hhi : ("hi" : String) ≠ "" := by decide
  have hic : String.intercalate (" ") [" hi "] = " hi " := by decide
  have hres : merge_transcription_with_diarization ⟨"", [⟨" hi ", 0, 1⟩], [], some 1, none⟩
      ⟨[⟨"A", 0, 1, 1⟩], none, none⟩ none none
    = ⟨" hi ", [⟨"A", 0, 1, "hi", some 1, none, none⟩], none, 1, 1, none⟩ := by
    have hd : (["A"] : List String).dedup = ["A"] := by simp
    norm_num [merge_transcription_with_diarization, wordsOf, assign_words_to_speakers,
      find_speaker_at_time, group_words_into_turns, groupFullStart, groupFullAux, mkTurnFull,
      finalizeTurn, applyMapping, truthyDict, mgetD, pyOrStr, hs, hic, hA, hhi, hd, pyRound3,
      roundHalfEven, List.find?]
  rw [hres]
  refine ⟨rfl, by decide, by decide⟩

/-! ## Claim C9 -/

/-- C9 (amended): the merger performs no span validation — a token whose end
is before its start is silently processed like any other token: it is
assigned a speaker by its midpoint, lands inside one of the produced turns,
and the merge returns a normal result built from those turns instead of
failing fast. -/
theorem c9_invalid_span_is_silently_processed (wr : WhisperResult) (dr : DiarResult)
    (m : Option (List (String × String))) (c : Option (List (String × ℚ)))
    (hw : wordsOf wr ≠ []) (hd : dr.segments ≠ [])
    (w : Word) (hmem : w ∈ wordsOf wr) (_hinv : w.endT < w.start)
    (hne : pyStrip w.word ≠ "") :
    (∃ t ∈ groupFullStart (assign_words_to_speakers (wordsOf wr) dr.segments),
      ∃ aw ∈ t.words, aw.word = w.word ∧ aw.start = w.start ∧ aw.endT = w.endT
        ∧ aw.speaker = pyOrStr (find_speaker_at_time ((w.start + w.endT) / 2) dr.segments)
            ("SPEAKER_UNKNOWN"))
    ∧ (merge_transcription_with_diarization wr dr m c).segments.length
        = (groupFullStart (assign_words_to_speakers (wordsOf wr) dr.segments)).length := by
  constructor
  · have haw : (AWord.mk w.word w.start w.endT
        (pyOrStr (find_speaker_at_time ((w.start + w.endT) / 2) dr.segments)
          ("SPEAKER_UNKNOWN"))) ∈ assign_words_to_speakers (wordsOf wr) dr.segments := by
      rw [assign_words_to_speakers]
      exact List.mem_map_of_mem _ hmem
    have hfil : (AWord.mk w.word w.start w.endT
        (pyOrStr (find_speaker_at_time ((w.start + w.endT) / 2) dr.segments)
          ("SPEAKER_UNKNOWN")))
        ∈ (assign_words_to_speakers (wordsOf wr) dr.segments).filter
            (fun x => !(decide (pyStrip x.word = ""))) := by
      rw [List.mem_filter]
      exact ⟨haw, by simpa using hne⟩
    rw [← groupFullStart_words] at hfil
    obtain ⟨t, hT, hawt⟩ := List.mem_flatMap.mp hfil
    exact ⟨t, hT, _, hawt, rfl, rfl, rfl, rfl⟩
  · have hw2 : ¬((wordsOf wr).isEmpty = true) := fun h => hw (List.isEmpty_iff.mp h)
    have hd2 : ¬(dr.segments.isEmpty = true) := fun h => hd (List.isEmpty_iff.mp h)
    rw [merge_transcription_with_diarization]
    simp only [if_neg hw2, if_neg hd2]
    rw [applyMapping]
    by_cases hm : truthyDict m
    · simp [hm, group_words_into_turns]
    · simp [hm, group_words_into_turns]

/-- Witness for C9: the invalid word `("hi", 5, 1)` (end before start) is
still grouped into a turn, with the speaker found at its midpoint `3`. -/
theorem c9_invalid_span_is_silently_processed_witness :
    (∃ t ∈ groupFullStart (assign_words_to_speakers
        (wordsOf ⟨"oops", [⟨"hi", 5, 1⟩], [], some 7, none⟩) [⟨"A", 0, 10, 10⟩]),
      ∃ aw ∈ t.words, aw.word = (⟨"hi", 5, 1⟩ : Word).word
        ∧ aw.start = (⟨"hi", 5, 1⟩ : Word).start ∧ aw.endT = (⟨"hi", 5, 1⟩ : Word).endT
        ∧ aw.speaker = pyOrStr (find_speaker_at_time ((5 + 1) / 2) [⟨"A", 0, 10, 10⟩])
            ("SPEAKER_UNKNOWN"))
    ∧ (merge_transcription_with_diarization ⟨"oops", [⟨"hi", 5, 1⟩], [], some 7, none⟩
        ⟨[⟨"A", 0, 10, 10⟩], none, none⟩ none none).segments.length
      = (groupFullStart (assign_words_to_speakers
          (wordsOf ⟨"oops", [⟨"hi", 5, 1⟩], [], some 7, none⟩) [⟨"A", 0, 10, 10⟩])).length :=
  c9_invalid_span_is_silently_processed ⟨"oops", [⟨"hi", 5, 1⟩], [], some 7, none⟩
    ⟨[⟨"A", 0, 10, 10⟩], none, none⟩ none none (by simp [wordsOf]) (by simp)
    ⟨"hi", 5, 1⟩ (by simp [wordsOf]) (by norm_num) (by decide)

/-- Counterexample to C9 as stated: on a merge input containing the invalid
span `("hi", start 5, end 1)` the merger raises nothing and returns a normal
result — the invalid token is assigned speaker `A` via its midpoint `3` and
emitted as a turn with negative duration. -/
theorem c9_claim_counterexample :
    ((⟨"hi", 5, 1⟩ : Word).endT < (⟨"hi", 5, 1⟩ : Word).start)
    ∧ merge_transcription_with_diarization ⟨"oops", [⟨"hi", 5, 1⟩], [], some 7, none⟩
        ⟨[⟨"A", 0, 10, 10⟩], none, none⟩ none none
      = ⟨"oops", [⟨"A", 5, 1, "hi", some (-4), none, none⟩], none, 1, 7, none⟩ := by
  constructor
  · norm_num
  · have hs : pyStrip ("hi") = "hi" := by decide
    have hA : ("A" : String) ≠ "" := by decide
    have hhi : ("hi" : String) ≠ "" := by decide
    have hoops : ("oops" : String) ≠ "" := by decide
    have hd : (["A"] : List String).dedup = ["A"] := by simp
    norm_num [merge_transcription_with_diarization, wordsOf, assign_words_to_speakers,
      find_speaker_at_time, group_words_into_turns, groupFullStart, groupFullAux, mkTurnFull,
      finalizeTurn, applyMapping, truthyDict, mgetD, pyOrStr, hs, hA, hhi, hoops, hd, pyRound3,
      roundHalfEven, List.find?]

/-! ## Claim C2 -/

/-- C2 (amended): when the transcription yields at least one word and the
diarization result has no segments, the merge returns exactly one turn,
spanning `0` to the reported audio duration, under the fixed label
`SPEAKER_00`. -/
theorem c2_empty_diarization_single_turn (wr : WhisperResult) (dr : DiarResult)
    (m : Option (List (String × String))) (c : Option (List (String × ℚ)))
    (hw : wordsOf wr ≠ []) (hd : dr.segments = []) :
    (merge_transcription_with_diarization wr dr m c).segments.length = 1
    ∧ ∀ t ∈ (merge_transcription_with_diarization wr dr m c).segments,
        t.speaker = "SPEAKER_00" ∧ t.start = 0 ∧ t.endT = wr.duration.getD 0 := by
  have hw2 : ¬((wordsOf wr).isEmpty = true) := fun h => hw (List.isEmpty_iff.mp h)
  have hd2 : dr.segments.isEmpty = true := by simp [hd]
  rw [merge_transcription_with_diarization]
  simp only [if_neg hw2, if_pos hd2]
  refine ⟨rfl, ?_⟩
  intro t ht
  rcases List.mem_cons.mp ht with h | h
  · subst h
    exact ⟨rfl, rfl, rfl⟩
  · cases h

/-- Witness for C2 at a concrete input with one word and no diarization
segments. -/
theorem c2_empty_diarization_single_turn_witness :
    (merge_transcription_with_diarization ⟨"hello", [⟨"hello", 0, 1⟩], [], some 2, none⟩
        ⟨[], none, none⟩ none none).segments.length = 1
    ∧ ∀ t ∈ (merge_transcription_with_diarization ⟨"hello", [⟨"hello", 0, 1⟩], [], some 2, none⟩
        ⟨[], none, none⟩ none none).segments,
        t.speaker = "SPEAKER_00" ∧ t.start = 0
          ∧ t.endT = (⟨"hello", [⟨"hello", 0, 1⟩], [], some 2, none⟩ : WhisperResult).duration.getD 0 :=
  c2_empty_diarization_single_turn ⟨"hello", [⟨"hello", 0, 1⟩], [], some 2, none⟩
    ⟨[], none, none⟩ none none (by simp [wordsOf]) rfl

/-- Counterexample to C2 as stated: a transcription result with no words and
no segments, against an empty diarization, merges to an empty segment list —
not to exactly one synthesized turn. -/
theorem c2_claim_counterexample :
    (⟨[], none, none⟩ : DiarResult).segments = []
    ∧ (merge_transcription_with_diarization ⟨"t", [], [], some 7, none⟩ ⟨[], none, none⟩
        none none).segments = [] := by
  refine ⟨rfl, ?_⟩
  norm_num [merge_transcription_with_diarization, merge_segment_level, wordsOf]

/-! ## Claim C8 -/

/-- C8 (amended): `identified_as` and `confidence` are null together in
every produced turn whenever the optional `speaker_mapping` and
`speaker_confidences` arguments have the same Python truthiness and map the
same keys; if only one of them is supplied (or their key sets differ) the
two fields are set independently and the claimed equivalence fails. -/
theorem c8_identified_iff_confidence (wr : WhisperResult) (dr : DiarResult)
    (m : Option (List (String × String))) (c : Option (List (String × ℚ)))
    (hT : truthyDict m = truthyDict c)
    (hK : ∀ k, (mgetD m k).isSome = (mgetD c k).isSome) :
    ∀ t ∈ (merge_transcription_with_diarization wr dr m c).segments,
      (t.identified_as = none ↔ t.confidence = none) := by
  have hiff : ∀ k : String, (mgetD m k = none ↔ mgetD c k = none) := by
    intro k
    have h := hK k
    cases hm : mgetD m k <;> cases hc : mgetD c k <;> simp_all
  intro t ht
  rw [merge_transcription_with_diarization] at ht
  by_cases hw : (wordsOf wr).isEmpty
  · rw [if_pos hw] at ht
    rw [merge_segment_level] at ht
    obtain ⟨wseg, _, hteq⟩ := List.mem_map.mp ht
    rw [← hteq]
    exact hiff _
  · rw [if_neg hw] at ht
    by_cases hd : dr.segments.isEmpty
    · rw [if_pos hd] at ht
      rcases List.mem_cons.mp ht with h | h
      · rw [h]
        exact hiff ("SPEAKER_00")
      · cases h
    · rw [if_neg hd] at ht
      rw [applyMapping] at ht
      by_cases hm : truthyDict m
      · rw [if_pos hm] at ht
        obtain ⟨t0, _, hteq⟩ := List.mem_map.mp ht
        rw [← hteq]
        have hc : truthyDict c = true := hT ▸ hm
        simp only [hc, if_pos]
        have hm2 : mgetD m t0.speaker = dget (m.getD []) t0.speaker := by
          rw [mgetD, if_pos hm]
        have hc2 : mgetD c t0.speaker = dget (c.getD []) t0.speaker := by
          rw [mgetD, if_pos hc]
        rw [← hm2, ← hc2]
        exact hiff _
      · rw [if_neg hm] at ht
        obtain ⟨t0, _, hteq⟩ := List.mem_map.mp (by
          rw [group_words_into_turns] at ht
          exact ht)
        rw [← hteq]
        simp [finalizeTurn]

/-- Witness for C8: both maps supplied for the same key set. -/
theorem c8_identified_iff_confidence_witness :
    ((⟨"A", 0, 1, "hi", some 1, some "Alice", some (9/10)⟩ : Turn).identified_as = none
      ↔ (⟨"A", 0, 1, "hi", some 1, some "Alice", some (9/10)⟩ : Turn).confidence = none) :=
  c8_identified_iff_confidence ⟨"hi", [⟨"hi", 0, 1⟩], [], some 1, none⟩
    ⟨[⟨"A", 0, 1, 1⟩], none, none⟩ (some [("A", "Alice")]) (some [("A", 9/10)])
    rfl
    (by
      intro k
      by_cases h : ("A" : String) = k <;>
        simp [mgetD, truthyDict, dget, List.find?, h])
    ⟨"A", 0, 1, "hi", some 1, some "Alice", some (9/10)⟩
    (by
      have hs : pyStrip ("hi") = "hi" := by decide
      have hA : ("A" : String) ≠ "" := by decide
      have hhi : ("hi" : String) ≠ "" := by decide
      norm_num [merge_transcription_with_diarization, wordsOf, assign_words_to_speakers,
        find_speaker_at_time, group_words_into_turns, groupFullStart, groupFullAux, mkTurnFull,
        finalizeTurn, applyMapping, truthyDict, mgetD, dget, pyOrStr, hs, hA, hhi, pyRound3,
        roundHalfEven, List.find?])

/-- Counterexample to C8 as stated: with a speaker mapping supplied but no
confidence map, the produced turn has a non-null `identified_as` and a null
`confidence`. -/
theorem c8_claim_counterexample :
    (merge_transcription_with_diarization ⟨"hi", [⟨"hi", 0, 2⟩], [], some 2, none⟩
        ⟨[], none, none⟩ (some [("SPEAKER_00", "Alice")]) none).segments.map
      (fun t => (t.identified_as, t.confidence))
    = [(some "Alice", (none : Option ℚ))]
    ∧ (some "Alice" : Option String) ≠ none := by
  refine ⟨?_, by decide⟩
  norm_num [merge_transcription_with_diarization, wordsOf, truthyDict, mgetD, dget,
    List.find?]

/-! ## Lemmas: the voting table -/

/-- Upserting a match appends its score under its own key. -/
lemma scoresInTable_upsert_same (t : List VEntry) (m : VMatch) :
    scoresInTable (upsertMatch t m) m.speaker_id
      = scoresInTable t m.speaker_id ++ [m.score] := by
  induction t with
  | nil => simp [upsertMatch, scoresInTable, List.find?]
  | cons e rest ih =>
    by_cases h : e.sid = m.speaker_id
    · rw [upsertMatch, if_pos h]
      simp [scoresInTable, List.find?, h]
    · rw [upsertMatch, if_neg h]
      have hne : (decide (e.sid = m.speaker_id)) = false := by simp [h]
      simp only [scoresInTable, List.find?, hne]
      exact ih

/-- Upserting a match leaves every other key's scores unchanged. -/
lemma scoresInTable_upsert_other (t : List VEntry) (m : VMatch) (id : String)
    (h : id ≠ m.speaker_id) :
    scoresInTable (upsertMatch t m) id = scoresInTable t id := by
  induction t with
  | nil =>
    have hne : (decide ((m.speaker_id : String) = id)) = false := by simp [Ne.symm h]
    simp [upsertMatch, scoresInTable, List.find?, hne]
  | cons e rest ih =>
    by_cases he : e.sid = m.speaker_id
    · rw [upsertMatch, if_pos he]
      have hne : (decide (e.sid = id)) = false := by simp [he, Ne.symm h]
      simp [scoresInTable, List.find?, hne]
    · rw [upsertMatch, if_neg he]
      by_cases hei : e.sid = id
      · simp [scoresInTable, List.find?, hei]
      · have hne : (decide (e.sid = id)) = false := by simp [hei]
        simp only [scoresInTable, List.find?, hne]
        exact ih

/-- Folding the matches into the table appends, under every key, exactly the
scores of the matches carrying that key, in order. -/
lemma scoresInTable_collect (ms : List VMatch) :
    ∀ (t : List VEntry) (id : String),
    scoresInTable (collectMatches t ms) id
      = scoresInTable t id
        ++ ms.filterMap (fun m2 => if m2.speaker_id = id then some m2.score else none) := by
  induction ms with
  | nil =>
    intro t id
    simp [collectMatches]
  | cons m ms ih =>
    intro t id
    rw [collectMatches, ih]
    by_cases h : m.speaker_id = id
    · subst h
      rw [scoresInTable_upsert_same]
      simp
    · rw [scoresInTable_upsert_other t m id (Ne.symm h)]
      simp [h]

/-- Keys after an upsert: unchanged if the match's key is present, else the
key is appended at the end. -/
lemma keys_upsert (t : List VEntry) (m : VMatch) :
    (upsertMatch t m).map (fun e => e.sid)
      = if m.speaker_id ∈ t.map (fun e => e.sid) then t.map (fun e => e.sid)
        else t.map (fun e => e.sid) ++ [m.speaker_id] := by
  induction t with
  | nil => simp [upsertMatch]
  | cons e rest ih =>
    by_cases h : e.sid = m.speaker_id
    · rw [upsertMatch, if_pos h]
      simp [h]
    · rw [upsertMatch, if_neg h]
      have hmem : (m.speaker_id ∈ (e :: rest).map (fun e => e.sid))
          ↔ (m.speaker_id ∈ rest.map (fun e => e.sid)) := by
        simp [List.mem_cons, Ne.symm h]
      by_cases h2 : m.speaker_id ∈ rest.map (fun e => e.sid)
      · rw [if_pos (hmem.mpr h2)]
        simp only [List.map_cons, ih, if_pos h2]
      · rw [if_neg (fun hx => h2 (hmem.mp hx))]
        simp only [List.map_cons, ih, if_neg h2]
        simp

/-- Membership in the first-appearance deduplication. -/
lemma firstIdsAux_mem (l : List String) :
    ∀ (seen : List String) (y : String),
    y ∈ firstIdsAux seen l ↔ (y ∈ l ∧ y ∉ seen) := by
  induction l with
  | nil => intro seen y; simp [firstIdsAux]
  | cons x xs ih =>
    intro seen y
    by_cases h : x ∈ seen
    · rw [firstIdsAux, if_pos h, ih]
      constructor
      · rintro ⟨h1, h2⟩
        exact ⟨List.mem_cons_of_mem _ h1, h2⟩
      · rintro ⟨h1, h2⟩
        rcases List.mem_cons.mp h1 with h3 | h3
        · exact absurd (h3 ▸ h) h2
        · exact ⟨h3, h2⟩
    · rw [firstIdsAux, if_neg h]
      constructor
      · intro hy
        rcases List.mem_cons.mp hy with h3 | h3
        · exact ⟨h3 ▸ List.mem_cons_self _ _, h3 ▸ h⟩
        · have := (ih (x :: seen) y).mp h3
          exact ⟨List.mem_cons_of_mem _ this.1,
            fun hc => this.2 (List.mem_cons_of_mem _ hc)⟩
      · rintro ⟨h1, h2⟩
        by_cases hyx : y = x
        · exact hyx ▸ List.mem_cons_self _ _
        · rcases List.mem_cons.mp h1 with h3 | h3
          · exact absurd h3 hyx
          · refine List.mem_cons_of_mem _ ((ih (x :: seen) y).mpr ⟨h3, ?_⟩)
            intro hc
            rcases List.mem_cons.mp hc with h4 | h4
            · exact hyx h4
            · exact h2 h4

/-- The first-appearance deduplication is insensitive to the representation
of the already-seen set. -/
lemma firstIdsAux_congr (l : List String) :
    ∀ s1 s2 : List String, (∀ y, y ∈ s1 ↔ y ∈ s2) →
    firstIdsAux s1 l = firstIdsAux s2 l := by
  induction l with
  | nil => intro s1 s2 _; rfl
  | cons x xs ih =>
    intro s1 s2 hiff
    by_cases h : x ∈ s1
    · rw [firstIdsAux, if_pos h, firstIdsAux, if_pos ((hiff x).mp h)]
      exact ih s1 s2 hiff
    · rw [firstIdsAux, if_neg h, firstIdsAux, if_neg (fun hx => h ((hiff x).mpr hx))]
      refine congrArg (fun ys => x :: ys) (ih (x :: s1) (x :: s2) ?_)
      intro y
      simp only [List.mem_cons]
      exact or_congr Iff.rfl (hiff y)

/-- The table's key list is the first-appearance deduplication of the match
keys, relative to the keys already present. -/
lemma keys_collect (ms : List VMatch) :
    ∀ t : List VEntry,
    (collectMatches t ms).map (fun e => e.sid)
      = t.map (fun e => e.sid)
        ++ firstIdsAux (t.map (fun e => e.sid)) (ms.map (fun m2 => m2.speaker_id)) := by
  induction ms with
  | nil => intro t; simp [collectMatches, firstIdsAux]
  | cons m ms ih =>
    intro t
    rw [collectMatches, ih]
    by_cases h : m.speaker_id ∈ t.map (fun e => e.sid)
    · rw [keys_upsert, if_pos h]
      simp only [List.map_cons, firstIdsAux, if_pos h]
    · rw [keys_upsert, if_neg h]
      simp only [List.map_cons, firstIdsAux, if_neg h]
      rw [firstIdsAux_congr (ms.map (fun m2 => m2.speaker_id))
        (t.map (fun e => e.sid) ++ [m.speaker_id]) (m.speaker_id :: t.map (fun e => e.sid))
        (by intro y; simp [List.mem_append, List.mem_cons, or_comm])]
      simp

/-- The first-appearance deduplication has no duplicates and avoids the seen
set. -/
lemma firstIdsAux_nodup (l : List String) :
    ∀ seen : List String,
    (firstIdsAux seen l).Nodup ∧ ∀ y ∈ firstIdsAux seen l, y ∉ seen := by
  induction l with
  | nil => intro seen; exact ⟨List.nodup_nil, by intro y hy; cases hy⟩
  | cons x xs ih =>
    intro seen
    by_cases h : x ∈ seen
    · rw [firstIdsAux, if_pos h]
      exact ih seen
    · rw [firstIdsAux, if_neg h]
      obtain ⟨hnd, hnin⟩ := ih (x :: seen)
      refine ⟨List.nodup_cons.mpr ⟨?_, hnd⟩, ?_⟩
      · intro hc
        exact hnin x hc (List.mem_cons_self _ _)
      · intro y hy
        rcases List.mem_cons.mp hy with h3 | h3
        · exact h3 ▸ h
        · exact fun hc => hnin y h3 (List.mem_cons_of_mem _ hc)

/-- Every entry of the table keeps the id it is keyed under inside its
stored first match. -/
lemma collect_entry_id (ms : List VMatch) :
    ∀ t : List VEntry, (∀ e ∈ t, e.info.speaker_id = e.sid) →
    ∀ e ∈ collectMatches t ms, e.info.speaker_id = e.sid := by
  induction ms with
  | nil => intro t ht; exact ht
  | cons m ms ih =>
    intro t ht
    refine ih (upsertMatch t m) ?_
    clear ih
    induction t with
    | nil =>
      intro e he
      rcases List.mem_cons.mp he with h | h
      · rw [h]
      · cases h
    | cons e2 rest ih2 =>
      intro e he
      by_cases h : e2.sid = m.speaker_id
      · rw [upsertMatch, if_pos h] at he
        rcases List.mem_cons.mp he with h2 | h2
        · rw [h2]
          exact ht e2 (List.mem_cons_self _ _)
        · exact ht e (List.mem_cons_of_mem _ h2)
      · rw [upsertMatch, if_neg h] at he
        rcases List.mem_cons.mp he with h2 | h2
        · exact h2 ▸ ht e2 (List.mem_cons_self _ _)
        · exact ih2 (fun x hx => ht x (List.mem_cons_of_mem _ hx)) e h2

/-! ## Lemmas: the best-average selection loop -/

/-- The selection loop leaves the running best unchanged when no entry
strictly improves it. -/
lemma bestLoop_no_improve (l : List VEntry) :
    ∀ b : Option String × ℚ, (∀ e ∈ l, avgOf e.scores ≤ b.2) → bestLoop l b = b := by
  induction l with
  | nil => intro b _; rfl
  | cons e rest ih =>
    intro b hle
    have hne : ¬(avgOf e.scores > b.2) := not_lt.mpr (hle e (List.mem_cons_self _ _))
    rw [bestLoop, if_neg hne]
    exact ih b (fun x hx => hle x (List.mem_cons_of_mem _ hx))

/-- When some entry strictly improves the running best, the loop returns the
first entry attaining the maximum average: everything before it is strictly
below, everything after is no greater. -/
lemma bestLoop_found (l : List VEntry) :
    ∀ b : Option String × ℚ, (∃ e ∈ l, b.2 < avgOf e.scores) →
    ∃ l1 w l2, l = l1 ++ w :: l2
      ∧ bestLoop l b = (some w.sid, avgOf w.scores)
      ∧ b.2 < avgOf w.scores
      ∧ (∀ x ∈ l1, avgOf x.scores < avgOf w.scores)
      ∧ (∀ x ∈ l2, avgOf x.scores ≤ avgOf w.scores) := by
  induction l with
  | nil =>
    intro b hex
    obtain ⟨e, he, _⟩ := hex
    cases he
  | cons e rest ih =>
    intro b hex
    by_cases h : b.2 < avgOf e.scores
    · rw [bestLoop, if_pos h]
      by_cases h2 : ∃ x ∈ rest, avgOf e.scores < avgOf x.scores
      · obtain ⟨l1, w, l2, heq, hbl, hlt, hfront, hback⟩ :=
          ih (some e.sid, avgOf e.scores) h2
        refine ⟨e :: l1, w, l2, by rw [heq, List.cons_append], hbl, lt_trans h hlt, ?_, hback⟩
        intro x hx
        rcases List.mem_cons.mp hx with h3 | h3
        · exact h3 ▸ hlt
        · exact hfront x h3
      · push_neg at h2
        refine ⟨[], e, rest, rfl, bestLoop_no_improve rest _ h2, h, ?_, h2⟩
        intro x hx
        cases hx
    · rw [bestLoop, if_neg (by simpa using h)]
      obtain ⟨e2, he2, hgt⟩ := hex
      have he2r : e2 ∈ rest := by
        rcases List.mem_cons.mp he2 with h3 | h3
        · exact absurd (h3 ▸ hgt) h
        · exact h3
      obtain ⟨l1, w, l2, heq, hbl, hlt, hfront, hback⟩ := ih b ⟨e2, he2r, hgt⟩
      refine ⟨e :: l1, w, l2, by rw [heq, List.cons_append], hbl, hlt, ?_, hback⟩
      intro x hx
      rcases List.mem_cons.mp hx with h3 | h3
      · exact h3 ▸ lt_of_le_of_lt (not_lt.mp h) hlt
      · exact hfront x h3

/-- With duplicate-free keys, looking an entry's own key up in the table
returns that entry. -/
lemma find_entry_of_decomp (l1 : List VEntry) (w : VEntry) (l2 : List VEntry)
    (hnodup : ((l1 ++ w :: l2).map (fun e => e.sid)).Nodup) :
    (l1 ++ w :: l2).find? (fun e => e.sid = w.sid) = some w := by
  rw [List.find?_append]
  have h1 : l1.find? (fun e => e.sid = w.sid) = none := by
    rw [List.find?_eq_none]
    intro x hx
    simp only [decide_eq_true_eq]
    intro hxw
    rw [List.map_append, List.map_cons] at hnodup
    have hnotin := (List.nodup_append.mp hnodup).2.2
    exact hnotin (List.mem_map_of_mem _ hx) (hxw ▸ List.mem_cons_self _ _)
  rw [h1, Option.none_or]
  exact List.find?_cons_of_pos _ (by simp)

/-- Splitting a duplicate-free list at a fixed element is unambiguous. -/
lemma nodup_split_unique {α : Type} (x : α) :
    ∀ (a c b d : List α), a ++ x :: b = c ++ x :: d → (a ++ x :: b).Nodup →
    a = c ∧ b = d := by
  intro a
  induction a with
  | nil =>
    intro c b d heq hnd
    match c with
    | [] =>
      rw [List.nil_append, List.nil_append] at heq
      exact ⟨rfl, (List.cons.injEq _ _ _ _).mp heq |>.2⟩
    | y :: c2 =>
      rw [List.nil_append] at heq
      have hx : x = y := ((List.cons.injEq _ _ _ _).mp heq).1
      have hb : b = c2 ++ x :: d := ((List.cons.injEq _ _ _ _).mp heq).2
      have hxb : x ∈ b := hb ▸ List.mem_append_right _ (List.mem_cons_self _ _)
      have hnd2 : (x :: b).Nodup := by rw [List.nil_append] at hnd; exact hnd
      exact absurd hxb (List.nodup_cons.mp hnd2).1
  | cons z a2 ih =>
    intro c b d heq hnd
    match c with
    | [] =>
      rw [List.nil_append] at heq
      have hx : z = x := ((List.cons.injEq _ _ _ _).mp heq).1
      have hrest : a2 ++ x :: b = d := ((List.cons.injEq _ _ _ _).mp heq).2
      have hmem : x ∈ a2 ++ x :: b := List.mem_append_right _ (List.mem_cons_self _ _)
      have hnd2 : (z :: (a2 ++ x :: b)).Nodup := by
        rw [List.cons_append] at hnd; exact hnd
      exact absurd (hx ▸ hmem) (List.nodup_cons.mp hnd2).1
    | y :: c2 =>
      have hz : z = y := ((List.cons.injEq _ _ _ _).mp heq).1
      have hrest : a2 ++ x :: b = c2 ++ x :: d := ((List.cons.injEq _ _ _ _).mp heq).2
      have hnd1 : (z :: (a2 ++ x :: b)).Nodup := by
        rw [List.cons_append] at hnd; exact hnd
      have hnd2 : (a2 ++ x :: b).Nodup := (List.nodup_cons.mp hnd1).2
      obtain ⟨h1, h2⟩ := ih c2 b d hrest hnd2
      exact ⟨by rw [hz, h1], h2⟩

/-! ## Claim C1 -/

/-- C1 (amended): whenever the embeddings list is non-empty, its similarity
queries return at least one candidate, every candidate carries a non-empty
identity id and a score in `[0,1]`, and at least one score is strictly
positive, the voting identifier groups the candidates by identity id,
averages each id's scores over exactly the matches that returned that id,
and returns the id whose mean score is highest — ties broken in favour of
the id appearing first in iteration order — together with that mean and the
number of contributing matches.  On the spec's example (top scores 0.9, 0.8,
0.7, all id `X`, no competitor) the result is `X` with score 0.8 and 3
matches.  (If every score is `≤ 0`, or the winner's id is the empty string,
the code instead returns no match, because the running best starts at `0`
and only strictly greater averages replace it — hence the added provisos.) -/
theorem c1_voting_returns_best_average :
    (∀ queries : List (List VMatch),
      queries ≠ [] →
      queries.flatMap (fun q => q) ≠ [] →
      (∀ q ∈ queries, ∀ m2 ∈ q, 0 ≤ m2.score ∧ m2.score ≤ 1) →
      (∃ q ∈ queries, ∃ m2 ∈ q, 0 < m2.score) →
      (∀ q ∈ queries, ∀ m2 ∈ q, m2.speaker_id ≠ "") →
      ∃ r, identify_speaker_by_voting queries = some r
        ∧ r.speaker_id ∈ firstIds ((queries.flatMap (fun q => q)).map (fun m2 => m2.speaker_id))
        ∧ r.score = avgOf (scoresFor queries r.speaker_id)
        ∧ r.num_matches = (scoresFor queries r.speaker_id).length
        ∧ (∀ id ∈ firstIds ((queries.flatMap (fun q => q)).map (fun m2 => m2.speaker_id)),
            avgOf (scoresFor queries id) ≤ r.score)
        ∧ (∀ ids1 ids2,
            firstIds ((queries.flatMap (fun q => q)).map (fun m2 => m2.speaker_id))
              = ids1 ++ r.speaker_id :: ids2 →
            ∀ id ∈ ids1, avgOf (scoresFor queries id) < r.score))
    ∧ identify_speaker_by_voting [[⟨"X", "X", 9/10⟩], [⟨"X", "X", 8/10⟩], [⟨"X", "X", 7/10⟩]]
        = some ⟨"X", "X", 4/5, 3⟩ := by
  constructor
  · intro queries hq hflat hrange hpos hid
    have hkeys : (collectMatches [] (queries.flatMap (fun q => q))).map (fun e => e.sid)
        = firstIds ((queries.flatMap (fun q => q)).map (fun m2 => m2.speaker_id)) := by
      rw [keys_collect]
      rfl
    have hscores : ∀ id, scoresInTable (collectMatches [] (queries.flatMap (fun q => q))) id
        = scoresFor queries id := by
      intro id
      rw [scoresInTable_collect]
      rfl
    have hnodup : ((collectMatches [] (queries.flatMap (fun q => q))).map
        (fun e => e.sid)).Nodup := by
      rw [hkeys]
      exact (firstIdsAux_nodup _ []).1
    have hinv : ∀ e ∈ collectMatches [] (queries.flatMap (fun q => q)),
        e.info.speaker_id = e.sid := by
      refine collect_entry_id _ [] ?_
      intro e he
      cases he
    have hescores : ∀ e ∈ collectMatches [] (queries.flatMap (fun q => q)),
        e.scores = scoresFor queries e.sid := by
      intro e he
      obtain ⟨t1, t2, hdec⟩ := List.append_of_mem he
      have hfind : (collectMatches [] (queries.flatMap (fun q => q))).find?
          (fun x => x.sid = e.sid) = some e := by
        rw [hdec]
        exact find_entry_of_decomp t1 e t2 (by rw [← hdec]; exact hnodup)
      have h2 : scoresInTable (collectMatches [] (queries.flatMap (fun q => q))) e.sid
          = e.scores := by
        simp [scoresInTable, hfind]
      rw [← h2, hscores]
    have htne : collectMatches [] (queries.flatMap (fun q => q)) ≠ [] := by
      intro hnil
      have hk0 : (collectMatches [] (queries.flatMap (fun q => q))).map (fun e => e.sid)
          = [] := by rw [hnil]; rfl
      rw [hkeys] at hk0
      rcases hfl : queries.flatMap (fun q => q) with _ | ⟨m, rest⟩
      · exact hflat hfl
      · rw [hfl] at hk0
        simp [firstIds, firstIdsAux] at hk0
    -- a strictly positive average exists in the table
    obtain ⟨q0, hq0, m0, hm0, hm0pos⟩ := hpos
    have hm0flat : m0 ∈ queries.flatMap (fun q => q) :=
      List.mem_flatMap.mpr ⟨q0, hq0, hm0⟩
    have hsidmem : m0.speaker_id ∈ (collectMatches [] (queries.flatMap (fun q => q))).map
        (fun e => e.sid) := by
      rw [hkeys]
      exact (firstIdsAux_mem _ [] _).mpr ⟨List.mem_map_of_mem _ hm0flat, by simp⟩
    obtain ⟨e0, he0, he0sid⟩ := List.mem_map.mp hsidmem
    have hminc : m0.score ∈ scoresFor queries m0.speaker_id := by
      rw [scoresFor]
      exact List.mem_filterMap.mpr ⟨m0, hm0flat, by simp⟩
    have hnonneg : ∀ x ∈ scoresFor queries m0.speaker_id, 0 ≤ x := by
      intro x hx
      rw [scoresFor] at hx
      obtain ⟨m1, hm1, hm1x⟩ := List.mem_filterMap.mp hx
      by_cases hcase : m1.speaker_id = m0.speaker_id
      · rw [if_pos hcase] at hm1x
        obtain ⟨q1, hq1, hm1q⟩ := List.mem_flatMap.mp hm1
        have hx2 : m1.score = x := Option.some.inj hm1x
        rw [← hx2]
        exact (hrange q1 hq1 m1 hm1q).1
      · rw [if_neg hcase] at hm1x
        cases hm1x
    have hsumpos : 0 < (scoresFor queries m0.speaker_id).sum :=
      lt_of_lt_of_le hm0pos (List.single_le_sum hnonneg _ hminc)
    have hlenpos : 0 < ((scoresFor queries m0.speaker_id).length : ℚ) := by
      have hne : scoresFor queries m0.speaker_id ≠ [] := by
        intro h
        rw [h] at hminc
        cases hminc
      exact_mod_cast List.length_pos.mpr hne
    have he0avg : 0 < avgOf e0.scores := by
      rw [hescores e0 he0, he0sid]
      exact div_pos hsumpos hlenpos
    -- run the selection loop
    obtain ⟨l1, w, l2, hdec, hbl, _hwpos, hfront, hback⟩ :=
      bestLoop_found (collectMatches [] (queries.flatMap (fun q => q))) (none, 0)
        ⟨e0, he0, by simpa using he0avg⟩
    have hwmem : w ∈ collectMatches [] (queries.flatMap (fun q => q)) := by
      rw [hdec]
      exact List.mem_append_right _ (List.mem_cons_self _ _)
    have hwkey : w.sid ∈ firstIds ((queries.flatMap (fun q => q)).map
        (fun m2 => m2.speaker_id)) := by
      rw [← hkeys]
      exact List.mem_map_of_mem _ hwmem
    have hwne : w.sid ≠ "" := by
      have hsub := ((firstIdsAux_mem _ [] _).mp hwkey).1
      obtain ⟨mw, hmw, hmwsid⟩ := List.mem_map.mp hsub
      obtain ⟨qw, hqw, hmwq⟩ := List.mem_flatMap.mp hmw
      exact hmwsid ▸ hid qw hqw mw hmwq
    have hfindw : (collectMatches [] (queries.flatMap (fun q => q))).find?
        (fun x => x.sid = w.sid) = some w := by
      rw [hdec]
      exact find_entry_of_decomp l1 w l2 (by rw [← hdec]; exact hnodup)
    have hqne : ¬(queries.isEmpty = true) := fun h => hq (List.isEmpty_iff.mp h)
    have htne2 : ¬((collectMatches [] (queries.flatMap (fun q => q))).isEmpty = true) :=
      fun h => htne (List.isEmpty_iff.mp h)
    have hidval : identify_speaker_by_voting queries
        = some ⟨w.info.speaker_name, w.info.speaker_id, avgOf w.scores, w.scores.length⟩ := by
      rw [identify_speaker_by_voting]
      simp only [if_neg hqne, if_neg htne2, hbl, if_neg hwne, hfindw]
    have hrid : w.info.speaker_id = w.sid := hinv w hwmem
    have hws : w.scores = scoresFor queries w.sid := hescores w hwmem
    refine ⟨⟨w.info.speaker_name, w.info.speaker_id, avgOf w.scores, w.scores.length⟩,
      hidval, ?_, ?_, ?_, ?_, ?_⟩
    · show w.info.speaker_id ∈ _
      rw [hrid]
      exact hwkey
    · show avgOf w.scores = avgOf (scoresFor queries w.info.speaker_id)
      rw [hrid, hws]
    · show w.scores.length = (scoresFor queries w.info.speaker_id).length
      rw [hrid, hws]
    · intro id hidmem
      rw [← hkeys] at hidmem
      obtain ⟨e, he, hesid⟩ := List.mem_map.mp hidmem
      have heavg : avgOf (scoresFor queries id) = avgOf e.scores := by
        rw [← hesid, hescores e he]
      show avgOf (scoresFor queries id) ≤ avgOf w.scores
      rw [heavg]
      rw [hdec] at he
      rcases List.mem_append.mp he with h | h
      · exact le_of_lt (hfront e h)
      · rcases List.mem_cons.mp h with h2 | h2
        · exact h2 ▸ le_refl _
        · exact hback e h2
    · intro ids1 ids2 hsplit id hidmem1
      have hkdec : firstIds ((queries.flatMap (fun q => q)).map (fun m2 => m2.speaker_id))
          = l1.map (fun e => e.sid) ++ w.sid :: l2.map (fun e => e.sid) := by
        rw [← hkeys, hdec]
        simp
      have hnd : (ids1 ++ w.sid :: ids2).Nodup := by
        have := hnodup
        rw [hkeys, hsplit] at this
        show (ids1 ++ w.sid :: ids2).Nodup
        have hrid2 : (⟨w.info.speaker_name, w.info.speaker_id, avgOf w.scores,
            w.scores.length⟩ : VoteResult).speaker_id = w.sid := hrid
        rw [← hrid2]
        exact this
      have heq2 : ids1 ++ w.sid :: ids2
          = l1.map (fun e => e.sid) ++ w.sid :: l2.map (fun e => e.sid) := by
        have h1 := hsplit
        rw [hkdec] at h1
        have hrid2 : (⟨w.info.speaker_name, w.info.speaker_id, avgOf w.scores,
            w.scores.length⟩ : VoteResult).speaker_id = w.sid := hrid
        rw [hrid2] at h1
        exact h1.symm
      obtain ⟨hids1, _⟩ := nodup_split_unique w.sid ids1 (l1.map (fun e => e.sid)) ids2
        (l2.map (fun e => e.sid)) heq2 hnd
      rw [hids1] at hidmem1
      obtain ⟨e, he, hesid⟩ := List.mem_map.mp hidmem1
      have hemem : e ∈ collectMatches [] (queries.flatMap (fun q => q)) := by
        rw [hdec]
        exact List.mem_append_left _ he
      have heavg : avgOf (scoresFor queries id) = avgOf e.scores := by
        rw [← hesid, hescores e hemem]
      show avgOf (scoresFor queries id) < avgOf w.scores
      rw [heavg]
      exact hfront e he
  · norm_num [identify_speaker_by_voting, collectMatches, upsertMatch, bestLoop, avgOf,
      List.find?, List.flatMap]
    intro h
    exact absurd h (by decide)

/-- Witness for C1: the spec's example run, with every hypothesis discharged
on the concrete match lists. -/
theorem c1_voting_returns_best_average_witness :
    ∃ r, identify_speaker_by_voting
          [[⟨"X", "X", 9/10⟩], [⟨"X", "X", 8/10⟩], [⟨"X", "X", 7/10⟩]] = some r
      ∧ r.speaker_id ∈ firstIds
          ((([[⟨"X", "X", 9/10⟩], [⟨"X", "X", 8/10⟩], [⟨"X", "X", 7/10⟩]]
            : List (List VMatch)).flatMap (fun q => q)).map (fun m2 => m2.speaker_id))
      ∧ r.score = avgOf (scoresFor
          [[⟨"X", "X", 9/10⟩], [⟨"X", "X", 8/10⟩], [⟨"X", "X", 7/10⟩]] r.speaker_id)
      ∧ r.num_matches = (scoresFor
          [[⟨"X", "X", 9/10⟩], [⟨"X", "X", 8/10⟩], [⟨"X", "X", 7/10⟩]] r.speaker_id).length
      ∧ (∀ id ∈ firstIds
            ((([[⟨"X", "X", 9/10⟩], [⟨"X", "X", 8/10⟩], [⟨"X", "X", 7/10⟩]]
              : List (List VMatch)).flatMap (fun q => q)).map (fun m2 => m2.speaker_id)),
          avgOf (scoresFor
            [[⟨"X", "X", 9/10⟩], [⟨"X", "X", 8/10⟩], [⟨"X", "X", 7/10⟩]] id) ≤ r.score)
      ∧ (∀ ids1 ids2,
          firstIds ((([[⟨"X", "X", 9/10⟩], [⟨"X", "X", 8/10⟩], [⟨"X", "X", 7/10⟩]]
              : List (List VMatch)).flatMap (fun q => q)).map (fun m2 => m2.speaker_id))
            = ids1 ++ r.speaker_id :: ids2 →
          ∀ id ∈ ids1, avgOf (scoresFor
            [[⟨"X", "X", 9/10⟩], [⟨"X", "X", 8/10⟩], [⟨"X", "X", 7/10⟩]] id) < r.score) :=
  c1_voting_returns_best_average.1
    [[⟨"X", "X", 9/10⟩], [⟨"X", "X", 8/10⟩], [⟨"X", "X", 7/10⟩]]
    (by simp)
    (by simp [List.flatMap])
    (by
      intro q hq m2 hm2
      rcases List.mem_cons.mp hq with h | h
      · subst h
        rcases List.mem_cons.mp hm2 with h2 | h2
        · subst h2; norm_num
        · cases h2
      rcases List.mem_cons.mp h with h | h
      · subst h
        rcases List.mem_cons.mp hm2 with h2 | h2
        · subst h2; norm_num
        · cases h2
      rcases List.mem_cons.mp h with h | h
      · subst h
        rcases List.mem_cons.mp hm2 with h2 | h2
        · subst h2; norm_num
        · cases h2
      · cases h)
    ⟨[⟨"X", "X", 9/10⟩], List.mem_cons_self _ _, ⟨"X", "X", 9/10⟩,
      List.mem_cons_self _ _, by norm_num⟩
    (by
      intro q hq m2 hm2
      rcases List.mem_cons.mp hq with h | h
      · subst h
        rcases List.mem_cons.mp hm2 with h2 | h2
        · subst h2; simp
        · cases h2
      rcases List.mem_cons.mp h with h | h
      · subst h
        rcases List.mem_cons.mp hm2 with h2 | h2
        · subst h2; simp
        · cases h2
      rcases List.mem_cons.mp h with h | h
      · subst h
        rcases List.mem_cons.mp hm2 with h2 | h2
        · subst h2; simp
        · cases h2
      · cases h)

/-- Counterexample to C1 as stated: a single embedding whose single returned
candidate has the in-range score `0`.  The claim demands that the id `X`
with mean score `0` and one match be returned, but the code returns `None`,
because the running best average starts at `0` and only strictly greater
averages replace it. -/
theorem c1_claim_counterexample :
    ([[⟨"X", "X", 0⟩]] : List (List VMatch)) ≠ []
    ∧ ([[⟨"X", "X", 0⟩]] : List (List VMatch)).flatMap (fun q => q) ≠ []
    ∧ ((0 : ℚ) ≤ (⟨"X", "X", 0⟩ : VMatch).score ∧ (⟨"X", "X", 0⟩ : VMatch).score ≤ 1)
    ∧ identify_speaker_by_voting [[⟨"X", "X", 0⟩]] = none := by
  refine ⟨by simp, by simp [List.flatMap], by norm_num, ?_⟩
  norm_num [identify_speaker_by_voting, collectMatches, upsertMatch, bestLoop, avgOf,
    List.find?, List.flatMap]
